import Mathlib

/-!
Verification of the OpenOligo Pinout Registry (`src/openoligo/hal/board.py`).

The registry binds logical device names to physical GPIO pins, guarantees
no physical pin is claimed twice, and exposes case-insensitive name lookup.
This file shallowly embeds the data model and the construction/lookup
operations of `board.py` and proves or refutes the specified properties.

Modules `openoligo/hal/types.py` (the `Board` enumeration, `Switchable`,
`NoSuchPinInPinout`) and `openoligo/hal/devices.py` (`Switch`, `Valve`) are
referenced by `board.py` but are not part of the provided sources; those
pieces are modelled from the spec, as marked on each definition.
-/

namespace OpenOligo

/-- Modelled from the spec: `Board` (openoligo/hal/types.py, not in src/) is
"an exhaustive, closed enumeration of every physical pin position on the
instrument's I/O header"; no member is synthesized at runtime.  The members
used by `board.py` (P3, P5, P7, P8, P10, P11, P12, P13) are included
together with further configurable positions (the spec's end-to-end
scenario uses P20). -/
inductive Board where
  | P3 | P5 | P7 | P8 | P10 | P11 | P12 | P13
  | P15 | P16 | P18 | P19 | P20 | P21 | P22 | P23
  deriving DecidableEq, Repr

/-- Modelled from the spec: the closed enumeration of all `Board` members,
as iterated by `for pin in Board` in `list_configurable_pins`. -/
def Board.all : List Board :=
  [.P3, .P5, .P7, .P8, .P10, .P11, .P12, .P13,
   .P15, .P16, .P18, .P19, .P20, .P21, .P22, .P23]

/-- Modelled from the spec: the Device abstraction
(openoligo/hal/devices.py, not in src/) is "a tagged union over
{Switch, Valve}, each carrying exactly one PinIdentifier".  `Switchable` is
the shared capability surface named in `board.py`'s type annotations. -/
inductive Switchable where
  | Switch (gpio_pin : Board)
  | Valve (gpio_pin : Board)
  deriving DecidableEq, Repr

/-- Accessor for the wrapped pin (`gpio_pin` attribute used at
board.py line 44). -/
def Switchable.gpio_pin : Switchable → Board
  | .Switch p => p
  | .Valve p => p

/-- Modelled from the spec: "Equality between two Devices is defined as
equality of their wrapped PinIdentifier, regardless of variant tag"
(devices.py, not in src/).  This is the equality Python's
`pin in self.__pinout.values()` membership test at board.py line 77 uses. -/
def Switchable.deviceEq (a b : Switchable) : Bool :=
  a.gpio_pin = b.gpio_pin

/-- Tag test corresponding to `isinstance(v, Valve)` at board.py line 105. -/
def Switchable.is_valve : Switchable → Bool
  | .Switch _ => false
  | .Valve _ => true

/-- Lower-casing of a name, as `name.lower()` does in Python for the ASCII
names used here: each character is lower-cased individually. -/
def strLower (s : String) : String :=
  ⟨s.data.map Char.toLower⟩

/-- The hard-coded fixed pinout dictionary (board.py lines 27-36), in its
literal insertion order. -/
def fixed : List (String × Switchable) :=
  [("waste", .Valve .P7),
   ("waste_rxn", .Valve .P5),
   ("prod", .Valve .P8),
   ("branch", .Valve .P12),
   ("rxn_out", .Valve .P13),
   ("sol", .Valve .P3),
   ("gas", .Valve .P10),
   ("pump", .Switch .P11)]

/-- The pins claimed by the fixed pinout:
`fixed_pins = [sw.gpio_pin for sw in fixed.values()]` (board.py line 44). -/
def fixed_pins : List Board :=
  fixed.map (fun sw => sw.2.gpio_pin)

/-- Embedding of `list_configurable_pins` (board.py lines 39-45):
`[pin for pin in Board if pin not in fixed_pins]`. -/
def list_configurable_pins : List Board :=
  Board.all.filter (fun pin => !fixed_pins.contains pin)

end OpenOligo

namespace OpenOligo

/-- Structured content of the `ValueError` raised at board.py line 78:
`f"Pin {pin} is used twice in {category}.{sub_category}."`.  The fields are
exactly the values interpolated into the message. -/
structure DuplicatePinError where
  pin : Switchable
  category : String
  sub_category : String
  deriving DecidableEq, Repr

/-- Python dict assignment `d[k] = v`: if the key is present its value is
replaced in place (insertion position kept), otherwise the pair is appended
at the end.  Tables built by `Pinout` always have distinct keys. -/
def dictInsert : List (String × Switchable) → String → Switchable → List (String × Switchable)
  | [], k, v => [(k, v)]
  | (k', v') :: rest, k, v =>
    if k' = k then (k, v) :: rest else (k', v') :: dictInsert rest k v

/-- Python dict lookup `d[k]`: value at the first (only) matching key. -/
def dictGet : List (String × Switchable) → String → Option Switchable
  | [], _ => none
  | (k', v) :: rest, k => if k' = k then some v else dictGet rest k

/-- Embedding of `Pinout.__add_pinout_safe` (board.py lines 68-79): raise if
the device's pin is already among the table's values (device equality, i.e.
pin equality), otherwise bind the lower-cased name to the device. -/
def addPinoutSafe (pinout : List (String × Switchable)) (pin : Switchable)
    (category sub_category : String) :
    Except DuplicatePinError (List (String × Switchable)) :=
  if (pinout.map Prod.snd).any (fun v => v.deviceEq pin) then
    .error ⟨pin, category, sub_category⟩
  else
    .ok (dictInsert pinout (strLower sub_category) pin)

/-- Processing loop of `Pinout.init_pinout` (board.py lines 81-93): fold the
(grouping, name, device) triples through `__add_pinout_safe`, aborting on
the first error. -/
def buildPinoutAux : List (String × String × Switchable) → List (String × Switchable) →
    Except DuplicatePinError (List (String × Switchable))
  | [], acc => .ok acc
  | (category, name, dev) :: rest, acc =>
    match addPinoutSafe acc dev category name with
    | .ok acc' => buildPinoutAux rest acc'
    | .error e => .error e

/-- The (grouping, name, device) triples walked by `init_pinout`: the
instance's public dict attributes in `__dict__` insertion order — `fixed`,
then `phosphoramidites`, then `reactants` (board.py lines 61-63, 85-91).
Configurable entries are `Valve`s per the `Dict[str, Valve]` parameter
types (board.py lines 55-56). -/
def initEntries (phosphoramidites reactants : List (String × Board)) :
    List (String × String × Switchable) :=
  fixed.map (fun kv => ("fixed", kv.1, kv.2))
    ++ phosphoramidites.map (fun kv => ("phosphoramidites", kv.1, Switchable.Valve kv.2))
    ++ reactants.map (fun kv => ("reactants", kv.1, Switchable.Valve kv.2))

/-- Embedding of `Pinout.__init__` / `init_pinout` (board.py lines 48-93):
construct the name→device table from the fixed map and the two
caller-supplied configurable maps, or fail with the duplicate-pin error. -/
def init_pinout (phosphoramidites reactants : List (String × Board)) :
    Except DuplicatePinError (List (String × Switchable)) :=
  buildPinoutAux (initEntries phosphoramidites reactants) []

/-- Embedding of `Pinout.pins` (board.py lines 95-99): the full table. -/
def Pinout.pins (t : List (String × Switchable)) : List (String × Switchable) :=
  t

/-- Embedding of `Pinout.valves` (board.py lines 101-105):
`{k: v for k, v in self.__pinout.items() if isinstance(v, Valve)}`. -/
def Pinout.valves (t : List (String × Switchable)) : List (String × Switchable) :=
  t.filter (fun kv => kv.2.is_valve)

/-- Structured content of the `NoSuchPinInPinout` error raised at board.py
lines 123-125: the queried name and `list(self.__pinout)`, the list of all
registered names. -/
structure NoSuchPinError where
  name : String
  available : List String
  deriving DecidableEq, Repr

/-- Embedding of `Pinout.get` (board.py lines 107-125): look the
lower-cased query up in the table; on a miss, fail with the error listing
every registered name. -/
def Pinout.get (t : List (String × Switchable)) (name : String) :
    Except NoSuchPinError Switchable :=
  match dictGet t (strLower name) with
  | some d => .ok d
  | none => .error ⟨name, t.map Prod.fst⟩

/-- Keys (logical names) of a table, `list(d)` in Python. -/
def keysOf (t : List (String × Switchable)) : List String :=
  t.map Prod.fst

/-- Pins of the devices of a table, in entry order. -/
def pinsOf (t : List (String × Switchable)) : List Board :=
  t.map (fun kv => kv.2.gpio_pin)

/-- Names of construction entries, in processing order. -/
def namesOf (entries : List (String × String × Switchable)) : List String :=
  entries.map (fun e => e.2.1)

/-- Device pins of construction entries, in processing order. -/
def entryPinsOf (entries : List (String × String × Switchable)) : List Board :=
  entries.map (fun e => e.2.2.gpio_pin)

/-- Concrete table produced by constructing with one configurable
phosphoramidite valve "ReagentA" on pin P20 (used in witnesses). -/
def exampleTable : List (String × Switchable) :=
  fixed ++ [("reagenta", .Valve .P20)]

/-- Concrete table produced by constructing with phosphoramidite valve
"ReagentA" on P20 and reactant valve "B2" on P21 (used in witnesses). -/
def exampleTable2 : List (String × Switchable) :=
  fixed ++ [("reagenta", .Valve .P20), ("b2", .Valve .P21)]

/-- Concrete table produced by constructing with one configurable valve
named "Waste" (colliding, after lower-casing, with the fixed name "waste")
on pin P20: the fixed binding of "waste" to P7 is overwritten. -/
def shadowTable : List (String × Switchable) :=
  [("waste", .Valve .P20),
   ("waste_rxn", .Valve .P5),
   ("prod", .Valve .P8),
   ("branch", .Valve .P12),
   ("rxn_out", .Valve .P13),
   ("sol", .Valve .P3),
   ("gas", .Valve .P10),
   ("pump", .Switch .P11)]

theorem Board.mem_all (p : Board) : p ∈ Board.all := by
  cases p <;> decide

theorem keysOf_nil : keysOf [] = [] := rfl

theorem keysOf_cons (kv : String × Switchable) (t : List (String × Switchable)) :
    keysOf (kv :: t) = kv.1 :: keysOf t := rfl

theorem pinsOf_nil : pinsOf [] = [] := rfl

theorem pinsOf_cons (kv : String × Switchable) (t : List (String × Switchable)) :
    pinsOf (kv :: t) = kv.2.gpio_pin :: pinsOf t := rfl

theorem keysOf_append (t₁ t₂ : List (String × Switchable)) :
    keysOf (t₁ ++ t₂) = keysOf t₁ ++ keysOf t₂ := by
  simp [keysOf]

theorem pinsOf_append (t₁ t₂ : List (String × Switchable)) :
    pinsOf (t₁ ++ t₂) = pinsOf t₁ ++ pinsOf t₂ := by
  simp [pinsOf]

theorem any_deviceEq_iff (t : List (String × Switchable)) (d : Switchable) :
    ((t.map Prod.snd).any (fun v => v.deviceEq d)) = true ↔ d.gpio_pin ∈ pinsOf t := by
  simp only [Switchable.deviceEq, pinsOf, List.any_eq_true, List.mem_map,
    decide_eq_true_eq]
  constructor
  · rintro ⟨v, ⟨kv, hkv, rfl⟩, h⟩
    exact ⟨kv, hkv, h⟩
  · rintro ⟨kv, hkv, h⟩
    exact ⟨kv.2, ⟨kv, hkv, rfl⟩, h⟩

theorem addPinoutSafe_error_of_mem (t : List (String × Switchable)) (d : Switchable)
    (c s : String) (h : d.gpio_pin ∈ pinsOf t) :
    addPinoutSafe t d c s = .error ⟨d, c, s⟩ := by
  unfold addPinoutSafe
  rw [if_pos ((any_deviceEq_iff t d).mpr h)]

theorem addPinoutSafe_ok_of_not_mem (t : List (String × Switchable)) (d : Switchable)
    (c s : String) (h : d.gpio_pin ∉ pinsOf t) :
    addPinoutSafe t d c s = .ok (dictInsert t (strLower s) d) := by
  unfold addPinoutSafe
  rw [if_neg (fun hc => h ((any_deviceEq_iff t d).mp hc))]

theorem dictInsert_of_not_mem (t : List (String × Switchable)) (k : String) (v : Switchable)
    (h : k ∉ keysOf t) : dictInsert t k v = t ++ [(k, v)] := by
  induction t with
  | nil => rfl
  | cons hd rest ih =>
    obtain ⟨k', v'⟩ := hd
    rw [keysOf_cons, List.mem_cons, not_or] at h
    have hne : ¬ k' = k := fun hc => h.1 hc.symm
    simp only [dictInsert, if_neg hne, List.cons_append, List.cons.injEq, true_and]
    exact ih h.2

theorem keysOf_dictInsert_subset (t : List (String × Switchable)) (k : String) (v : Switchable) :
    ∀ x ∈ keysOf (dictInsert t k v), x = k ∨ x ∈ keysOf t := by
  induction t with
  | nil =>
    intro x hx
    simp only [dictInsert, keysOf_cons, keysOf_nil, List.mem_singleton] at hx
    exact Or.inl hx
  | cons hd rest ih =>
    obtain ⟨k', v'⟩ := hd
    intro x hx
    by_cases hkk : k' = k
    · simp only [dictInsert, if_pos hkk, keysOf_cons, List.mem_cons] at hx
      rcases hx with h | h
      · exact Or.inl h
      · exact Or.inr (by rw [keysOf_cons]; exact List.mem_cons_of_mem _ h)
    · simp only [dictInsert, if_neg hkk, keysOf_cons, List.mem_cons] at hx
      rcases hx with h | h
      · subst h
        exact Or.inr (by rw [keysOf_cons]; exact List.mem_cons_self _ _)
      · rcases ih x h with h' | h'
        · exact Or.inl h'
        · exact Or.inr (by rw [keysOf_cons]; exact List.mem_cons_of_mem _ h')

theorem pinsOf_dictInsert_subset (t : List (String × Switchable)) (k : String) (v : Switchable) :
    ∀ p ∈ pinsOf (dictInsert t k v), p = v.gpio_pin ∨ p ∈ pinsOf t := by
  induction t with
  | nil =>
    intro p hp
    simp only [dictInsert, pinsOf_cons, pinsOf_nil, List.mem_singleton] at hp
    exact Or.inl hp
  | cons hd rest ih =>
    obtain ⟨k', v'⟩ := hd
    intro p hp
    by_cases hkk : k' = k
    · simp only [dictInsert, if_pos hkk, pinsOf_cons, List.mem_cons] at hp
      rcases hp with h | h
      · exact Or.inl h
      · exact Or.inr (by rw [pinsOf_cons]; exact List.mem_cons_of_mem _ h)
    · simp only [dictInsert, if_neg hkk, pinsOf_cons, List.mem_cons] at hp
      rcases hp with h | h
      · subst h
        exact Or.inr (by rw [pinsOf_cons]; exact List.mem_cons_self _ _)
      · rcases ih p h with h' | h'
        · exact Or.inl h'
        · exact Or.inr (by rw [pinsOf_cons]; exact List.mem_cons_of_mem _ h')

theorem dictInsert_nodup (t : List (String × Switchable)) (k : String) (v : Switchable)
    (hk : (keysOf t).Nodup) (hp : (pinsOf t).Nodup) (hv : v.gpio_pin ∉ pinsOf t) :
    (keysOf (dictInsert t k v)).Nodup ∧ (pinsOf (dictInsert t k v)).Nodup := by
  induction t with
  | nil =>
    constructor
    · simp [dictInsert, keysOf_cons, keysOf_nil]
    · simp [dictInsert, pinsOf_cons, pinsOf_nil]
  | cons hd rest ih =>
    obtain ⟨k', v'⟩ := hd
    rw [keysOf_cons, List.nodup_cons] at hk
    rw [pinsOf_cons, List.nodup_cons] at hp
    rw [pinsOf_cons, List.mem_cons, not_or] at hv
    by_cases hkk : k' = k
    · constructor
      · simp only [dictInsert, if_pos hkk, keysOf_cons, List.nodup_cons]
        exact ⟨hkk ▸ hk.1, hk.2⟩
      · simp only [dictInsert, if_pos hkk, pinsOf_cons, List.nodup_cons]
        exact ⟨hv.2, hp.2⟩
    · obtain ⟨ihk, ihp⟩ := ih hk.2 hp.2 hv.2
      constructor
      · simp only [dictInsert, if_neg hkk, keysOf_cons, List.nodup_cons]
        refine ⟨fun hmem => ?_, ihk⟩
        rcases keysOf_dictInsert_subset rest k v k' hmem with h | h
        · exact hkk h
        · exact hk.1 h
      · simp only [dictInsert, if_neg hkk, pinsOf_cons, List.nodup_cons]
        refine ⟨fun hmem => ?_, ihp⟩
        rcases pinsOf_dictInsert_subset rest k v v'.gpio_pin hmem with h | h
        · exact hv.1 h.symm
        · exact hp.1 h

theorem dictInsert_replace (acc₁ : List (String × Switchable)) (k : String)
    (d₁ d₂ : Switchable) (acc₂ : List (String × Switchable)) (h : k ∉ keysOf acc₁) :
    dictInsert (acc₁ ++ (k, d₁) :: acc₂) k d₂ = acc₁ ++ (k, d₂) :: acc₂ := by
  induction acc₁ with
  | nil => simp [dictInsert]
  | cons hd rest ih =>
    obtain ⟨k', v'⟩ := hd
    rw [keysOf_cons, List.mem_cons, not_or] at h
    have hne : ¬ k' = k := fun hc => h.1 hc.symm
    simp only [List.cons_append, dictInsert, if_neg hne, List.cons.injEq, true_and]
    exact ih h.2

theorem dictGet_eq_none_iff (t : List (String × Switchable)) (k : String) :
    dictGet t k = none ↔ k ∉ keysOf t := by
  induction t with
  | nil => simp [dictGet, keysOf_nil]
  | cons hd rest ih =>
    obtain ⟨k', v'⟩ := hd
    rw [keysOf_cons, List.mem_cons]
    by_cases hk : k' = k
    · subst hk
      simp [dictGet]
    · simp only [dictGet, if_neg hk, not_or]
      rw [ih]
      exact ⟨fun h => ⟨fun hc => hk hc.symm, h⟩, fun h => h.2⟩

theorem dictGet_isSome_of_mem (t : List (String × Switchable)) (k : String)
    (h : k ∈ keysOf t) : ∃ d, dictGet t k = some d := by
  cases hg : dictGet t k with
  | none => exact absurd h ((dictGet_eq_none_iff t k).mp hg)
  | some d => exact ⟨d, rfl⟩

theorem buildAux_ok_nodup (entries : List (String × String × Switchable)) :
    ∀ acc t, (keysOf acc).Nodup → (pinsOf acc).Nodup →
      buildPinoutAux entries acc = .ok t →
      (keysOf t).Nodup ∧ (pinsOf t).Nodup := by
  induction entries with
  | nil =>
    intro acc t hk hp h
    cases h
    exact ⟨hk, hp⟩
  | cons e rest ih =>
    intro acc t hk hp h
    obtain ⟨c, s, d⟩ := e
    by_cases hmem : d.gpio_pin ∈ pinsOf acc
    · rw [buildPinoutAux, addPinoutSafe_error_of_mem acc d c s hmem] at h
      cases h
    · rw [buildPinoutAux, addPinoutSafe_ok_of_not_mem acc d c s hmem] at h
      obtain ⟨hk', hp'⟩ := dictInsert_nodup acc (strLower s) d hk hp hmem
      exact ih _ t hk' hp' h

theorem buildAux_keys_origin (entries : List (String × String × Switchable)) :
    ∀ acc t, buildPinoutAux entries acc = .ok t →
      ∀ k ∈ keysOf t, k ∈ keysOf acc ∨ ∃ n ∈ namesOf entries, k = strLower n := by
  induction entries with
  | nil =>
    intro acc t h k hk
    cases h
    exact Or.inl hk
  | cons e rest ih =>
    intro acc t h k hk
    obtain ⟨c, s, d⟩ := e
    by_cases hmem : d.gpio_pin ∈ pinsOf acc
    · rw [buildPinoutAux, addPinoutSafe_error_of_mem acc d c s hmem] at h
      cases h
    · rw [buildPinoutAux, addPinoutSafe_ok_of_not_mem acc d c s hmem] at h
      rcases ih _ t h k hk with h' | ⟨n, hn, hkn⟩
      · rcases keysOf_dictInsert_subset acc (strLower s) d k h' with h'' | h''
        · exact Or.inr ⟨s, by simp [namesOf], h''⟩
        · exact Or.inl h''
      · refine Or.inr ⟨n, ?_, hkn⟩
        simp only [namesOf, List.map_cons, List.mem_cons]
        exact Or.inr (by simpa [namesOf] using hn)

theorem buildAux_ok_eq_of_nodup_names (entries : List (String × String × Switchable)) :
    ∀ acc, (keysOf acc ++ (namesOf entries).map strLower).Nodup →
      ∀ t, buildPinoutAux entries acc = .ok t →
        t = acc ++ entries.map (fun e => (strLower e.2.1, e.2.2)) := by
  induction entries with
  | nil =>
    intro acc _ t h
    cases h
    simp
  | cons e rest ih =>
    intro acc hn t h
    obtain ⟨c, s, d⟩ := e
    by_cases hmem : d.gpio_pin ∈ pinsOf acc
    · rw [buildPinoutAux, addPinoutSafe_error_of_mem acc d c s hmem] at h
      cases h
    · rw [buildPinoutAux, addPinoutSafe_ok_of_not_mem acc d c s hmem] at h
      have hfresh : strLower s ∉ keysOf acc := by
        rw [List.nodup_append] at hn
        intro hc
        exact hn.2.2 hc (by simp [namesOf])
      rw [dictInsert_of_not_mem acc (strLower s) d hfresh] at h
      have hn' : (keysOf (acc ++ [(strLower s, d)]) ++ (namesOf rest).map strLower).Nodup := by
        rw [keysOf_append]
        have : keysOf [((strLower s : String), d)] = [strLower s] := rfl
        rw [this, List.append_assoc, List.singleton_append]
        simpa [namesOf] using hn
      have := ih (acc ++ [(strLower s, d)]) hn' t h
      rw [this]
      simp [namesOf]

theorem buildAux_isOk_iff_of_nodup_names (entries : List (String × String × Switchable)) :
    ∀ acc, (keysOf acc ++ (namesOf entries).map strLower).Nodup →
      (pinsOf acc).Nodup →
      ((buildPinoutAux entries acc).isOk = true ↔ (pinsOf acc ++ entryPinsOf entries).Nodup) := by
  induction entries with
  | nil =>
    intro acc _ hp
    rw [buildPinoutAux]
    simp only [entryPinsOf, List.map_nil, List.append_nil]
    exact iff_of_true rfl hp
  | cons e rest ih =>
    intro acc hn hp
    obtain ⟨c, s, d⟩ := e
    by_cases hmem : d.gpio_pin ∈ pinsOf acc
    · rw [buildPinoutAux, addPinoutSafe_error_of_mem acc d c s hmem]
      have hnd : ¬ (pinsOf acc ++ entryPinsOf ((c, s, d) :: rest)).Nodup := by
        rw [List.nodup_append]
        intro hc
        exact hc.2.2 hmem (by simp [entryPinsOf])
      exact iff_of_false (fun hc => Bool.noConfusion hc) hnd
    · rw [buildPinoutAux, addPinoutSafe_ok_of_not_mem acc d c s hmem]
      have hfresh : strLower s ∉ keysOf acc := by
        rw [List.nodup_append] at hn
        intro hc
        exact hn.2.2 hc (by simp [namesOf])
      rw [dictInsert_of_not_mem acc (strLower s) d hfresh]
      have hn' : (keysOf (acc ++ [(strLower s, d)]) ++ (namesOf rest).map strLower).Nodup := by
        rw [keysOf_append]
        have : keysOf [((strLower s : String), d)] = [strLower s] := rfl
        rw [this, List.append_assoc, List.singleton_append]
        simpa [namesOf] using hn
      have hp' : (pinsOf (acc ++ [(strLower s, d)])).Nodup := by
        rw [pinsOf_append]
        have : pinsOf [((strLower s : String), d)] = [d.gpio_pin] := rfl
        rw [this]
        simp [List.nodup_append, hp, hmem]
      rw [ih (acc ++ [(strLower s, d)]) hn' hp', pinsOf_append]
      have : pinsOf [((strLower s : String), d)] = [d.gpio_pin] := rfl
      rw [this, List.append_assoc, List.singleton_append]
      simp [entryPinsOf]

theorem buildAux_error_append (entries : List (String × String × Switchable)) :
    ∀ acc e, buildPinoutAux entries acc = .error e →
      ∀ more, buildPinoutAux (entries ++ more) acc = .error e := by
  induction entries with
  | nil =>
    intro acc e h
    cases h
  | cons hd rest ih =>
    intro acc e h more
    obtain ⟨c, s, d⟩ := hd
    rw [List.cons_append, buildPinoutAux]
    rw [buildPinoutAux] at h
    cases haps : addPinoutSafe acc d c s with
    | ok acc' =>
      rw [haps] at h
      exact ih acc' e h more
    | error e' =>
      rw [haps] at h
      cases h
      rfl

/-- C1 (amended): for every successful construction of a Pinout, every
PinIdentifier appearing in the resulting pins() table appears in exactly
one (name, Device) entry — no physical pin is bound to two logical names.
(The claim as stated further asserted this for every pin of the *input*
union; that part fails under lower-cased name shadowing, where an earlier
binding — and with it its pin — is silently dropped.) -/
theorem C1_pin_in_exactly_one_entry (phosphoramidites reactants : List (String × Board))
    (t : List (String × Switchable))
    (hok : init_pinout phosphoramidites reactants = .ok t) :
    ∀ pn : Board, pn ∈ pinsOf (Pinout.pins t) →
      ((Pinout.pins t).filter (fun kv => kv.2.gpio_pin == pn)).length = 1 := by
  intro pn hp
  have hnd : (pinsOf t).Nodup :=
    (buildAux_ok_nodup _ [] t (by simp [keysOf]) (by simp [pinsOf]) hok).2
  have hcount : (pinsOf t).count pn = 1 := List.count_eq_one_of_mem hnd hp
  calc (t.filter (fun kv => kv.2.gpio_pin == pn)).length
      = t.countP (fun kv => kv.2.gpio_pin == pn) :=
        (List.countP_eq_length_filter _ _).symm
    _ = (pinsOf t).count pn := by
        rw [List.count_eq_countP, pinsOf, List.countP_map]
        rfl
    _ = 1 := hcount

/-- Witness for C1 (amended): in the registry built with one configurable
valve "ReagentA" on P20, pin P20 occupies exactly one entry. -/
theorem C1_witness :
    ((Pinout.pins exampleTable).filter (fun kv => kv.2.gpio_pin == Board.P20)).length = 1 :=
  C1_pin_in_exactly_one_entry [("ReagentA", .P20)] [] exampleTable rfl Board.P20 (by decide)

/-- Counterexample to C1 as stated: constructing with a configurable valve
named "Waste" (which lower-cases to the fixed name "waste") on pin P20
succeeds, pin P7 appears among the union of input devices, yet P7 appears
in zero entries of the resulting table — the name collision silently
discards the fixed "waste"→P7 binding. -/
theorem C1_counterexample_shadowed_input_pin :
    init_pinout [("Waste", Board.P20)] [] = .ok shadowTable ∧
    Board.P7 ∈ entryPinsOf (initEntries [("Waste", Board.P20)] []) ∧
    ((Pinout.pins shadowTable).filter (fun kv => kv.2.gpio_pin == Board.P7)).length = 0 :=
  ⟨rfl, by decide, by decide⟩

/-- C2 (amended): for every pair of input entries whose devices carry the
same PinIdentifier, construction fails immediately at the second
occurrence — the remaining entries are never processed — with an error
identifying the offending grouping, name and device pin.  (The claim as
stated further asserted the error also names the first claimant of the
pin; the raised message interpolates only the offending device, grouping
and name, see the counterexample.) -/
theorem C2_fail_fast_at_second_occurrence
    (entries : List (String × String × Switchable)) (acc : List (String × Switchable))
    (c s : String) (d : Switchable) (hdup : d.gpio_pin ∈ pinsOf acc) :
    buildPinoutAux ((c, s, d) :: entries) acc = .error ⟨d, c, s⟩ := by
  rw [buildPinoutAux, addPinoutSafe_error_of_mem acc d c s hdup]

/-- Witness for C2 (amended): with the fixed table built ("waste" holds
P7), a phosphoramidite entry "reagent" on P7 aborts construction at once,
even though a further reactant entry follows. -/
theorem C2_witness :
    buildPinoutAux [("phosphoramidites", "reagent", .Valve .P7),
        ("reactants", "other", .Valve .P21)] fixed =
      .error ⟨.Valve .P7, "phosphoramidites", "reagent"⟩ :=
  C2_fail_fast_at_second_occurrence [("reactants", "other", .Valve .P21)] fixed
    "phosphoramidites" "reagent" (.Valve .P7) (by decide)

/-- Counterexample to C2 as stated: two constructions that differ only in
the name of the entry that first claimed pin P20 fail with the identical
error value, so the error cannot identify the name that first claimed the
pin — it carries only the offending device, grouping and name. -/
theorem C2_counterexample_error_lacks_first_claimant :
    init_pinout [("alpha", Board.P20), ("dup", Board.P20)] [] =
      .error ⟨.Valve .P20, "phosphoramidites", "dup"⟩ ∧
    init_pinout [("beta", Board.P20), ("dup", Board.P20)] [] =
      .error ⟨.Valve .P20, "phosphoramidites", "dup"⟩ :=
  ⟨rfl, rfl⟩

/-- C3: duplicate-pin detection is variant-blind — the equality used by
the membership check compares only the wrapped PinIdentifier, so any
device already in the table whose pin equals the incoming device's pin
triggers the duplicate error, whatever the Switch/Valve tags of the two
devices are. -/
theorem C3_variant_blind_duplicate_detection
    (d₁ d₂ : Switchable) (t : List (String × Switchable)) (c s : String)
    (hpin : d₁.gpio_pin = d₂.gpio_pin) (hmem : d₁ ∈ t.map Prod.snd) :
    addPinoutSafe t d₂ c s = .error ⟨d₂, c, s⟩ := by
  apply addPinoutSafe_error_of_mem
  rw [← hpin]
  rcases List.mem_map.mp hmem with ⟨kv, hkv, hkd⟩
  simp only [pinsOf]
  exact List.mem_map.mpr ⟨kv, hkv, by rw [hkd]⟩

/-- Witness for C3: a configurable Valve wired to P11 collides with the
fixed Switch "pump" (P11) exactly as a Valve-Valve collision on P7 does. -/
theorem C3_witness :
    addPinoutSafe [("pump", Switchable.Switch Board.P11)] (.Valve .P11)
        "phosphoramidites" "v1" =
      .error ⟨.Valve .P11, "phosphoramidites", "v1"⟩ ∧
    addPinoutSafe [("waste", Switchable.Valve Board.P7)] (.Valve .P7)
        "reactants" "v2" =
      .error ⟨.Valve .P7, "reactants", "v2"⟩ :=
  ⟨C3_variant_blind_duplicate_detection (.Switch .P11) (.Valve .P11) _ _ _ rfl (by decide),
   C3_variant_blind_duplicate_detection (.Valve .P7) (.Valve .P7) _ _ _ rfl (by decide)⟩

/-- C4: for every successfully constructed registry, lookup is
case-insensitive — two queries with the same lower-cased form, once
registered, return the identical device — and every stored key is the
lower-cased form of one of the input names. -/
theorem C4_case_insensitive_get (phosphoramidites reactants : List (String × Board))
    (t : List (String × Switchable))
    (hok : init_pinout phosphoramidites reactants = .ok t) :
    (∀ q₁ q₂ : String, strLower q₁ = strLower q₂ → strLower q₁ ∈ keysOf t →
      Pinout.get t q₁ = Pinout.get t q₂ ∧ (Pinout.get t q₁).isOk = true) ∧
    (∀ kv ∈ t, ∃ n ∈ namesOf (initEntries phosphoramidites reactants), kv.1 = strLower n) := by
  constructor
  · intro q₁ q₂ heq hmem
    obtain ⟨d, hd⟩ := dictGet_isSome_of_mem t (strLower q₁) hmem
    have hd₂ : dictGet t (strLower q₂) = some d := by rw [← heq]; exact hd
    constructor
    · simp only [Pinout.get, hd, hd₂]
    · simp only [Pinout.get, hd]
      rfl
  · intro kv hkv
    have hk : kv.1 ∈ keysOf t := by
      simp only [keysOf]
      exact List.mem_map.mpr ⟨kv, hkv, rfl⟩
    rcases buildAux_keys_origin _ [] t hok kv.1 hk with h | ⟨n, hn, hkn⟩
    · simp [keysOf] at h
    · exact ⟨n, hn, hkn⟩

/-- Witness for C4: in the registry built with configurable valve
"ReagentA" on P20, the queries "Waste" and "WASTE" return the identical
device, and the lookup succeeds. -/
theorem C4_witness :
    Pinout.get exampleTable "Waste" = Pinout.get exampleTable "WASTE" ∧
    (Pinout.get exampleTable "Waste").isOk = true :=
  (C4_case_insensitive_get [("ReagentA", .P20)] [] exampleTable rfl).1
    "Waste" "WASTE" (by decide) (by decide)

/-- C5: for every registry and query, if the lower-cased query is not a
registered key, get fails with an error carrying the query and the list of
all currently registered names; if it is registered, get returns a device
and raises nothing. -/
theorem C5_get_miss_lists_registered_names (t : List (String × Switchable)) (name : String) :
    (strLower name ∉ keysOf t →
      Pinout.get t name = .error ⟨name, keysOf t⟩) ∧
    (strLower name ∈ keysOf t → ∃ d, Pinout.get t name = .ok d) := by
  constructor
  · intro h
    have hn : dictGet t (strLower name) = none := (dictGet_eq_none_iff t (strLower name)).mpr h
    simp only [Pinout.get, hn]
    rfl
  · intro h
    obtain ⟨d, hd⟩ := dictGet_isSome_of_mem t (strLower name) h
    exact ⟨d, by simp only [Pinout.get, hd]⟩

/-- Witness for C5: get "nonexistent" on the example registry fails with
the error listing every registered name; get "waste" returns a device. -/
theorem C5_witness :
    Pinout.get exampleTable "nonexistent" =
      .error ⟨"nonexistent", ["waste", "waste_rxn", "prod", "branch", "rxn_out",
        "sol", "gas", "pump", "reagenta"]⟩ ∧
    ∃ d, Pinout.get exampleTable "waste" = .ok d := by
  constructor
  · have h := (C5_get_miss_lists_registered_names exampleTable "nonexistent").1 (by decide)
    rw [h]
    rfl
  · exact (C5_get_miss_lists_registered_names exampleTable "waste").2 (by decide)

/-- C6: for every successfully constructed registry, all_valves() is a
subset of all_pins() containing zero Switch-tagged entries, and when the
normalized input names are pairwise distinct — 7 fixed valves, the fixed
pump switch and K configurable valves — all_valves() has exactly 7 + K
entries. -/
theorem C6_valves_filtered_view (phosphoramidites reactants : List (String × Board))
    (t : List (String × Switchable))
    (hn : ((namesOf (initEntries phosphoramidites reactants)).map strLower).Nodup)
    (hok : init_pinout phosphoramidites reactants = .ok t) :
    (∀ kv ∈ Pinout.valves t, kv ∈ Pinout.pins t) ∧
    (∀ kv ∈ Pinout.valves t, kv.2.is_valve = true) ∧
    (Pinout.valves t).length = 7 + (phosphoramidites.length + reactants.length) := by
  refine ⟨fun kv hkv => (List.mem_filter.mp hkv).1,
    fun kv hkv => (List.mem_filter.mp hkv).2, ?_⟩
  have ht := buildAux_ok_eq_of_nodup_names _ [] (by simpa [keysOf] using hn) t hok
  rw [List.nil_append] at ht
  subst ht
  have hconf : ∀ (l : List (String × Board)) (cat : String),
      (((l.map (fun kv => (cat, kv.1, Switchable.Valve kv.2))).map
          (fun e => (strLower e.2.1, e.2.2))).filter
        (fun kv => kv.2.is_valve)).length = l.length := by
    intro l cat
    induction l with
    | nil => rfl
    | cons hd rest ih =>
      rw [List.map_cons, List.map_cons, List.filter_cons]
      have hv : ((strLower hd.1, Switchable.Valve hd.2) : String × Switchable).2.is_valve
          = true := rfl
      rw [if_pos hv, List.length_cons, ih, List.length_cons]
  rw [Pinout.valves, initEntries, List.map_append, List.map_append,
    List.filter_append, List.filter_append, List.length_append, List.length_append,
    hconf phosphoramidites "phosphoramidites", hconf reactants "reactants"]
  have hfix : (((fixed.map (fun kv => (("fixed" : String), kv.1, kv.2))).map
      (fun e => (strLower e.2.1, e.2.2))).filter (fun kv => kv.2.is_valve)).length = 7 := by
    decide
  rw [hfix, Nat.add_assoc]

/-- Witness for C6: the registry built from one phosphoramidite valve and
one reactant valve has 9 = 7 + 2 valves. -/
theorem C6_witness :
    (Pinout.valves exampleTable2).length = 9 :=
  (C6_valves_filtered_view [("ReagentA", .P20)] [("B2", .P21)] exampleTable2
    (by decide) rfl).2.2

/-- C7: list_configurable_pins() returns exactly the complement of the
fixed-pin set within the full Board enumeration — a pin appears in the
result iff no device of the fixed map claims it. -/
theorem C7_configurable_pins_complement :
    ∀ pn : Board, pn ∈ list_configurable_pins ↔ ¬ ∃ kv ∈ fixed, kv.2.gpio_pin = pn := by
  intro pn
  rw [list_configurable_pins, List.mem_filter]
  constructor
  · rintro ⟨_, hnot⟩ ⟨kv, hkv, hpin⟩
    rw [Bool.not_eq_true'] at hnot
    have hmem : pn ∈ fixed_pins := by
      rw [fixed_pins]
      exact List.mem_map.mpr ⟨kv, hkv, hpin⟩
    have hc : fixed_pins.contains pn = true := List.elem_eq_true_of_mem hmem
    rw [hc] at hnot
    cases hnot
  · intro h
    refine ⟨Board.mem_all pn, ?_⟩
    rw [Bool.not_eq_true']
    by_contra hc
    rw [Bool.not_eq_false] at hc
    have hmem : pn ∈ fixed_pins := List.elem_iff.mp hc
    rw [fixed_pins] at hmem
    rcases List.mem_map.mp hmem with ⟨kv, hkv, hkx⟩
    exact h ⟨kv, hkv, hkx⟩

theorem entryPinsOf_initEntries (ph re : List (String × Board)) :
    entryPinsOf (initEntries ph re) =
      fixed_pins ++ (ph.map Prod.snd ++ re.map Prod.snd) := by
  simp only [entryPinsOf, initEntries, List.map_append, List.map_map, List.append_assoc]
  rfl

/-- C8 (amended): when the lower-cased input names are pairwise distinct
(no name shadowing), whether construction succeeds does not depend on the
iteration order of the configurable (name, pin) pairs: any permutation of
them — including moving pairs between the two configurable maps — succeeds
iff the original does.  (Without the distinct-name proviso the claim fails:
shadowing can free a pin for a later entry in one order but not another,
see the counterexample.) -/
theorem C8_order_independent_success (ph re ph' re' : List (String × Board))
    (hn : ((namesOf (initEntries ph re)).map strLower).Nodup)
    (hn' : ((namesOf (initEntries ph' re')).map strLower).Nodup)
    (hperm : (ph ++ re).Perm (ph' ++ re')) :
    ((init_pinout ph re).isOk = true ↔ (init_pinout ph' re').isOk = true) := by
  have h1 := buildAux_isOk_iff_of_nodup_names (initEntries ph re) []
    (by simpa [keysOf] using hn) (by simp [pinsOf])
  have h2 := buildAux_isOk_iff_of_nodup_names (initEntries ph' re') []
    (by simpa [keysOf] using hn') (by simp [pinsOf])
  simp only [init_pinout]
  rw [h1, h2, pinsOf_nil, List.nil_append, List.nil_append,
    entryPinsOf_initEntries, entryPinsOf_initEntries]
  have hp : (ph.map Prod.snd ++ re.map Prod.snd).Perm
      (ph'.map Prod.snd ++ re'.map Prod.snd) := by
    have h := hperm.map Prod.snd
    rwa [List.map_append, List.map_append] at h
  exact (hp.append_left fixed_pins).nodup_iff

/-- Witness for C8 (amended): exchanging one phosphoramidite pair and one
reactant pair between the two configurable maps preserves success. -/
theorem C8_witness :
    (init_pinout [("a", Board.P20)] [("b", Board.P21)]).isOk = true ↔
    (init_pinout [("b", Board.P21)] [("a", Board.P20)]).isOk = true :=
  C8_order_independent_success [("a", Board.P20)] [("b", Board.P21)]
    [("b", Board.P21)] [("a", Board.P20)] (by decide) (by decide)
    (List.Perm.swap ("b", Board.P21) ("a", Board.P20) [])

/-- Counterexample to C8 as stated: the same collection of configurable
(name, device) pairs succeeds in one iteration order and fails in the
other.  With "Waste" processed first, its lower-cased name collides with
the fixed "waste"→P7 binding and replaces it, freeing P7 for "x"; with
"x"→P7 processed first, P7 is still claimed by the fixed entry and
construction fails. -/
theorem C8_counterexample_order_dependent :
    ([(("x" : String), Board.P7), ("Waste", Board.P20)]).Perm
      [("Waste", Board.P20), ("x", Board.P7)] ∧
    (init_pinout [("Waste", Board.P20), ("x", Board.P7)] []).isOk = true ∧
    (init_pinout [("x", Board.P7), ("Waste", Board.P20)] []).isOk = false :=
  ⟨List.Perm.swap ("Waste", Board.P20) ("x", Board.P7) [], by decide, by decide⟩

/-- C9: a failed construction never yields a usable registry — if the
duplicate-pin check fails while processing a prefix of the entries, the
whole construction evaluates to that error: the entries after the failure
are never processed and no table, in particular not the partially-built
one, is ever returned to callers. -/
theorem C9_no_partial_registry (ph re : List (String × Board))
    (entries₁ entries₂ : List (String × String × Switchable)) (e : DuplicatePinError)
    (hsplit : initEntries ph re = entries₁ ++ entries₂)
    (hfail : buildPinoutAux entries₁ [] = .error e) :
    init_pinout ph re = .error e ∧ ∀ t, init_pinout ph re ≠ .ok t := by
  have h : init_pinout ph re = .error e := by
    rw [init_pinout, hsplit]
    exact buildAux_error_append entries₁ [] e hfail entries₂
  refine ⟨h, fun t hc => ?_⟩
  rw [h] at hc
  cases hc

/-- Witness for C9: a construction whose first configurable entry reuses
the fixed pin P7 fails with that duplicate error even though a further
entry follows the failing one. -/
theorem C9_witness :
    init_pinout [("a", Board.P7), ("b", Board.P20)] [] =
      .error ⟨.Valve .P7, "phosphoramidites", "a"⟩ :=
  (C9_no_partial_registry [("a", Board.P7), ("b", Board.P20)] []
    (initEntries [("a", Board.P7)] []) [("phosphoramidites", "b", .Valve .P20)]
    ⟨.Valve .P7, "phosphoramidites", "a"⟩ rfl rfl).1

/-- C10: two input entries sharing the same lower-cased logical name but
carrying different pins raise no error: the later-processed entry silently
replaces the earlier binding in the table, and the earlier entry's pin is
absent from the resulting table; only a repeated pin triggers the
duplicate error. -/
theorem C10_name_shadowing_replaces (acc₁ acc₂ : List (String × Switchable))
    (k c₂ s₂ : String) (d₁ d₂ : Switchable)
    (hk : strLower s₂ = k)
    (hkey : k ∉ keysOf acc₁)
    (hpin : d₂.gpio_pin ∉ pinsOf (acc₁ ++ (k, d₁) :: acc₂))
    (hfirst : d₁.gpio_pin ∉ pinsOf (acc₁ ++ acc₂)) :
    addPinoutSafe (acc₁ ++ (k, d₁) :: acc₂) d₂ c₂ s₂ =
      .ok (acc₁ ++ (k, d₂) :: acc₂) ∧
    d₁.gpio_pin ∉ pinsOf (acc₁ ++ (k, d₂) :: acc₂) := by
  constructor
  · rw [addPinoutSafe_ok_of_not_mem _ _ _ _ hpin, hk,
      dictInsert_replace acc₁ k d₁ d₂ acc₂ hkey]
  · intro hc
    rw [pinsOf_append, pinsOf_cons, List.mem_append, List.mem_cons] at hc
    rcases hc with h | h | h
    · refine hfirst ?_
      rw [pinsOf_append, List.mem_append]
      exact Or.inl h
    · refine hpin ?_
      rw [pinsOf_append, pinsOf_cons, List.mem_append, List.mem_cons]
      exact Or.inr (Or.inl h.symm)
    · refine hfirst ?_
      rw [pinsOf_append, List.mem_append]
      exact Or.inr h

/-- Witness for C10: adding the configurable valve "Waste"→P20 to the
fully built fixed table replaces the fixed "waste"→P7 binding without an
error, and P7 is absent from the resulting table. -/
theorem C10_witness :
    addPinoutSafe fixed (.Valve .P20) "phosphoramidites" "Waste" = .ok shadowTable ∧
    Board.P7 ∉ pinsOf shadowTable :=
  C10_name_shadowing_replaces []
    [("waste_rxn", .Valve .P5), ("prod", .Valve .P8), ("branch", .Valve .P12),
     ("rxn_out", .Valve .P13), ("sol", .Valve .P3), ("gas", .Valve .P10),
     ("pump", .Switch .P11)]
    "waste" "phosphoramidites" "Waste" (.Valve .P7) (.Valve .P20)
    (by decide) (by decide) (by decide) (by decide)

end OpenOligo
